import Mathlib

/-!
# Verification of the pattern-discovery / suggestion pipeline

A shallow embedding of the automation core of the repository
(`src/automation/pattern_discovery.py`, `src/automation/suggestion_engine.py`,
`src/automation/generator.py`) together with proofs about it.

Modelling conventions (shared by all definitions below):

* A history event (a Python dict) is an `Entry`; a missing dict key is `none`.
* Timestamps are modelled by their parsed value, a rational number of seconds
  (ISO-8601 parsing is abstracted: a present `last_changed` field stands for a
  string that `datetime.fromisoformat` accepts, and comparison of the raw ISO
  strings agrees with comparison of the parsed times).
* Python dicts (`defaultdict` groupings, `Counter`-like maps, the entity-history
  mapping) are insertion-ordered association lists, exactly as Python preserves
  insertion order; sets are modelled in first-insertion order.
* Python's stable `list.sort` is modelled by a stable insertion sort (`sSort`);
  any two stable sorts with the same comparison agree extensionally.
* Float arithmetic is idealised as exact rational arithmetic.  The square root
  inside `np.std` is the only non-rational operation; it is abstracted as a
  function parameter `sqrtQ : ℚ → ℚ` of the periodic miner.
* Configuration values are the resolved values of `config['automation']`
  (the `.get` defaults are the structure's default field values).
-/

set_option maxRecDepth 8000

namespace HAuto

/-- Configuration knobs read by the automation core
(`config['automation'].get(...)` with the source's defaults). -/
structure Config where
  min_occurrences : Nat := 3
  confidence_threshold : ℚ := 7/10
  max_suggestions : Nat := 5
  min_confidence : ℚ := 7/10
  suggestion_threshold : Nat := 3
deriving DecidableEq

/-- One raw history event.  `entity_id` is only consulted by the flat-list
input format of `AutomationGenerator.analyze_entity_usage`; a `none` field
models a missing dict key. -/
structure Entry where
  entity_id : Option String := none
  state : Option String := none
  last_changed : Option ℚ := none
deriving DecidableEq

/-- The entity-history mapping `Dict[str, List[Dict]]`, in insertion order. -/
abbrev EntityHistory := List (String × List Entry)

/-- Characters before the first dot. -/
def domainChars : List Char → List Char
  | [] => []
  | c :: rest => if c = '.' then [] else c :: domainChars rest

/-- `entity_id.split('.')[0]`. -/
def domainOf (eid : String) : String := String.mk (domainChars eid.data)

/-- `datetime.weekday()` of an epoch timestamp: 0 = Monday ... 6 = Sunday
(1970-01-01 was a Thursday, weekday 3). -/
def weekdayOf (t : ℚ) : Nat := ((Int.floor (t / 86400) + 3) % 7).toNat

/-- `datetime.hour` of an epoch timestamp. -/
def hourOf (t : ℚ) : Nat := ((Int.floor (t / 3600)) % 24).toNat

/-- Python's `f"{n:02d}"` for a natural number. -/
def twoDigit (n : Nat) : String := if n < 10 then "0" ++ Nat.repr n else Nat.repr n

/-- An event that carries both a `state` and a (parseable) `last_changed`. -/
def wfEntry (e : Entry) : Bool := e.state.isSome && e.last_changed.isSome

/-! ## Stable insertion sort

`sSort bef l` inserts each element in front of the first already-placed element
`y` with `bef x y = true`.  With `bef x y := (key y ≤ key x)` this is exactly
Python's stable `sort(key=..., reverse=True)`; with `bef x y := (key x ≤ key y)`
it is the stable ascending `sort(key=...)`. -/

def sInsert (bef : α → α → Bool) (x : α) : List α → List α
  | [] => [x]
  | y :: ys => if bef x y then x :: y :: ys else y :: sInsert bef x ys

def sSort (bef : α → α → Bool) : List α → List α
  | [] => []
  | x :: xs => sInsert bef x (sSort bef xs)

theorem mem_sInsert (bef : α → α → Bool) (x a : α) (l : List α) :
    a ∈ sInsert bef x l ↔ a = x ∨ a ∈ l := by
  induction l with
  | nil => simp [sInsert]
  | cons y ys ih =>
    by_cases h : bef x y = true
    · simp only [sInsert, h, if_true, List.mem_cons]
    · simp only [sInsert, h, Bool.false_eq_true, if_false, List.mem_cons, ih]
      tauto

theorem mem_sSort (bef : α → α → Bool) (a : α) (l : List α) :
    a ∈ sSort bef l ↔ a ∈ l := by
  induction l with
  | nil => simp [sSort]
  | cons x xs ih => simp [sSort, mem_sInsert, ih]

theorem pairwise_sInsert {R : α → α → Prop} (bef : α → α → Bool)
    (h1 : ∀ a b, bef a b = true → R a b) (h2 : ∀ a b, bef a b = false → R b a)
    (ht : Transitive R) (x : α) (l : List α) (hl : l.Pairwise R) :
    (sInsert bef x l).Pairwise R := by
  induction l with
  | nil => simp [sInsert]
  | cons y ys ih =>
    rcases List.pairwise_cons.mp hl with ⟨hy, hys⟩
    by_cases h : bef x y = true
    · rw [sInsert, if_pos h]
      refine List.pairwise_cons.mpr ⟨?_, hl⟩
      intro z hz
      rcases List.mem_cons.mp hz with rfl | hz
      · exact h1 _ _ h
      · exact ht (h1 _ _ h) (hy _ hz)
    · rw [sInsert, if_neg h]
      refine List.pairwise_cons.mpr ⟨?_, ih hys⟩
      intro z hz
      rcases (mem_sInsert bef x z ys).mp hz with rfl | hz
      · exact h2 _ _ (Bool.eq_false_iff.mpr h ▸ rfl)
      · exact hy _ hz

theorem pairwise_sSort {R : α → α → Prop} (bef : α → α → Bool)
    (h1 : ∀ a b, bef a b = true → R a b) (h2 : ∀ a b, bef a b = false → R b a)
    (ht : Transitive R) (l : List α) : (sSort bef l).Pairwise R := by
  induction l with
  | nil => simp [sSort]
  | cons x xs ih => exact pairwise_sInsert bef h1 h2 ht x _ ih

theorem filter_sInsert (bef : α → α → Bool) (p : α → Bool)
    (hpp : ∀ a b, p a = true → p b = true → bef a b = true) (x : α) (l : List α) :
    (sInsert bef x l).filter p = if p x then x :: l.filter p else l.filter p := by
  induction l with
  | nil => by_cases h : p x = true <;> simp [sInsert, List.filter, h]
  | cons y ys ih =>
    by_cases h : bef x y = true
    · by_cases hx : p x = true <;> simp [sInsert, h, List.filter_cons, hx]
    · have hyx : p x = true → p y = false := by
        intro hx
        cases hpy : p y
        · rfl
        · exact absurd (hpp x y hx hpy) h
      rw [sInsert, if_neg h]
      by_cases hx : p x = true
      · have hy := hyx hx
        simp [List.filter_cons, hy, ih, hx]
      · have hx' : p x = false := Bool.eq_false_iff.mpr hx
        by_cases hy : p y = true <;> simp [List.filter_cons, hy, ih, hx']

theorem filter_sSort (bef : α → α → Bool) (p : α → Bool)
    (hpp : ∀ a b, p a = true → p b = true → bef a b = true) (l : List α) :
    (sSort bef l).filter p = l.filter p := by
  induction l with
  | nil => simp [sSort]
  | cons x xs ih =>
    rw [sSort, filter_sInsert bef p hpp, ih]
    by_cases hx : p x = true <;> simp [List.filter_cons, hx]

/-! ## Insertion-ordered association lists

`pushAssoc` models `defaultdict(list)[k].append(v)`, `bumpCount` models
`Counter[k] += 1`, `bumpNested` models `defaultdict(lambda: defaultdict(int))`.
All keep keys in first-insertion order exactly like a Python dict. -/

def pushAssoc [DecidableEq κ] : List (κ × List ν) → κ → ν → List (κ × List ν)
  | [], k, v => [(k, [v])]
  | p :: rest, k, v => if p.1 = k then (p.1, p.2 ++ [v]) :: rest else p :: pushAssoc rest k v

/-- Lookup with default `[]`: `dict.get(k, [])`. -/
def assocGet [DecidableEq κ] (m : List (κ × List ν)) (k : κ) : List ν :=
  match m.find? (fun p => decide (p.1 = k)) with
  | some p => p.2
  | none => []

theorem assocGet_nil [DecidableEq κ] (k : κ) : assocGet ([] : List (κ × List ν)) k = [] := rfl

theorem assocGet_cons [DecidableEq κ] (q : κ × List ν) (m : List (κ × List ν)) (k : κ) :
    assocGet (q :: m) k = if q.1 = k then q.2 else assocGet m k := by
  by_cases h : q.1 = k <;> simp [assocGet, List.find?_cons, h]

theorem assocGet_pushAssoc [DecidableEq κ] (m : List (κ × List ν)) (k k' : κ) (v : ν) :
    assocGet (pushAssoc m k v) k' =
      if k' = k then assocGet m k ++ [v] else assocGet m k' := by
  induction m with
  | nil =>
    by_cases h : k' = k
    · subst h
      simp [pushAssoc, assocGet_cons, assocGet_nil]
    · have h' : ¬ k = k' := fun hc => h hc.symm
      simp [pushAssoc, assocGet_cons, assocGet_nil, h, h']
  | cons q rest ih =>
    by_cases hq : q.1 = k
    · rw [pushAssoc, if_pos hq]
      by_cases h : k' = k
      · subst h
        simp [assocGet_cons, hq]
      · have hq'' : ¬ q.1 = k' := by
          intro hc
          exact h (hc.symm.trans hq)
        simp only [assocGet_cons, hq'', if_neg, if_false, h]
    · rw [pushAssoc, if_neg hq]
      by_cases hk' : q.1 = k'
      · have h : ¬ k' = k := fun hc => hq (hk'.trans hc)
        simp [assocGet_cons, hk', h]
      · simp [assocGet_cons, hk', ih, hq]

def keysOf (m : List (κ × ν)) : List κ := m.map Prod.fst

theorem keysOf_pushAssoc [DecidableEq κ] (m : List (κ × List ν)) (k : κ) (v : ν) :
    keysOf (pushAssoc m k v) = if k ∈ keysOf m then keysOf m else keysOf m ++ [k] := by
  induction m with
  | nil => simp [pushAssoc, keysOf]
  | cons q rest ih =>
    by_cases hq : q.1 = k
    · simp [pushAssoc, hq, keysOf]
    · have hmem : k ∈ keysOf (q :: rest) ↔ k ∈ keysOf rest := by
        simp only [keysOf, List.map_cons, List.mem_cons]
        constructor
        · rintro (h | h)
          · exact absurd h.symm hq
          · exact h
        · exact Or.inr
      rw [pushAssoc, if_neg hq]
      by_cases hk : k ∈ keysOf rest
      · rw [if_pos (hmem.mpr hk)]
        simp only [keysOf, List.map_cons] at ih ⊢
        rw [ih, if_pos (show k ∈ List.map Prod.fst rest from hk)]
      · rw [if_neg (fun hc => hk (hmem.mp hc))]
        simp only [keysOf, List.map_cons] at ih ⊢
        rw [ih, if_neg (show k ∉ List.map Prod.fst rest from hk), List.cons_append]

def bumpCount [DecidableEq κ] : List (κ × Nat) → κ → List (κ × Nat)
  | [], s => [(s, 1)]
  | p :: rest, s => if p.1 = s then (p.1, p.2 + 1) :: rest else p :: bumpCount rest s

/-- `Counter`-style tally of a list of states, in first-occurrence order:
`counter[state] += 1` over the scan. -/
def countsOf (l : List String) : List (String × Nat) := l.foldl bumpCount []

theorem bumpCount_ne_nil [DecidableEq κ] (m : List (κ × Nat)) (s : κ) :
    bumpCount m s ≠ [] := by
  cases m with
  | nil => simp [bumpCount]
  | cons p rest =>
    by_cases h : p.1 = s <;> simp [bumpCount, h]

theorem foldl_bumpCount_ne_nil [DecidableEq κ] (l : List κ) (acc : List (κ × Nat))
    (h : acc ≠ []) : l.foldl bumpCount acc ≠ [] := by
  induction l generalizing acc with
  | nil => exact h
  | cons x xs ih => exact ih _ (bumpCount_ne_nil acc x)

theorem countsOf_ne_nil (l : List String) (h : l ≠ []) : countsOf l ≠ [] := by
  cases l with
  | nil => exact absurd rfl h
  | cons x xs => exact foldl_bumpCount_ne_nil xs _ (bumpCount_ne_nil [] x)

theorem foldl_bumpCount_const (l : List String) (s0 : String) (n : Nat)
    (h : ∀ s ∈ l, s = s0) : l.foldl bumpCount [(s0, n)] = [(s0, n + l.length)] := by
  induction l generalizing n with
  | nil => simp
  | cons x xs ih =>
    have hx : x = s0 := h x (List.mem_cons_self x xs)
    subst hx
    have : bumpCount [(x, n)] x = [(x, n + 1)] := by simp [bumpCount]
    rw [List.foldl_cons, this, ih (n + 1) (fun s hs => h s (List.mem_cons_of_mem _ hs))]
    simp [Nat.add_assoc, Nat.add_comm 1]

theorem countsOf_const (l : List String) (s0 : String) (hne : l ≠ [])
    (h : ∀ s ∈ l, s = s0) : countsOf l = [(s0, l.length)] := by
  cases l with
  | nil => exact absurd rfl hne
  | cons x xs =>
    have hx : x = s0 := h x (List.mem_cons_self x xs)
    subst hx
    have h1 : bumpCount [] x = [(x, 1)] := rfl
    rw [countsOf, List.foldl_cons, h1,
      foldl_bumpCount_const xs x 1 (fun s hs => h s (List.mem_cons_of_mem _ hs))]
    simp [Nat.add_comm]

/-- Python's `max(items, key=lambda x: x[1])`: the first item attaining the
maximal count (later ties do not replace the current best). -/
def firstArgmax (l : List (String × Nat)) : String × Nat :=
  match l with
  | [] => ("", 0)
  | x :: xs => xs.foldl (fun best y => if best.2 < y.2 then y else best) x

theorem foldl_pick_spec (xs : List (String × Nat)) (x : String × Nat) :
    (xs.foldl (fun best y => if best.2 < y.2 then y else best) x) ∈ x :: xs ∧
    x.2 ≤ (xs.foldl (fun best y => if best.2 < y.2 then y else best) x).2 ∧
    ∀ y ∈ xs, y.2 ≤ (xs.foldl (fun best y => if best.2 < y.2 then y else best) x).2 := by
  induction xs generalizing x with
  | nil => simp
  | cons y ys ih =>
    rw [List.foldl_cons]
    rcases ih (if x.2 < y.2 then y else x) with ⟨hmem, hle, hall⟩
    have hx : x.2 ≤ (if x.2 < y.2 then y else x).2 := by
      by_cases h : x.2 < y.2 <;> simp [h]
      · exact Nat.le_of_lt h
    have hy : y.2 ≤ (if x.2 < y.2 then y else x).2 := by
      by_cases h : x.2 < y.2 <;> simp [h]
      · exact Nat.le_of_not_lt h
    refine ⟨?_, Nat.le_trans hx hle, ?_⟩
    · rcases List.mem_cons.mp hmem with h | h
      · rw [h]
        by_cases hxy : x.2 < y.2
        · rw [if_pos hxy]
          exact List.mem_cons_of_mem _ (List.mem_cons_self y ys)
        · rw [if_neg hxy]
          exact List.mem_cons_self x (y :: ys)
      · exact List.mem_cons_of_mem _ (List.mem_cons_of_mem _ h)
    · intro z hz
      rcases List.mem_cons.mp hz with rfl | hz
      · exact Nat.le_trans hy hle
      · exact hall z hz

theorem firstArgmax_mem (l : List (String × Nat)) (h : l ≠ []) : firstArgmax l ∈ l := by
  cases l with
  | nil => exact absurd rfl h
  | cons x xs => exact (foldl_pick_spec xs x).1

theorem firstArgmax_le (l : List (String × Nat)) :
    ∀ p ∈ l, p.2 ≤ (firstArgmax l).2 := by
  cases l with
  | nil => simp
  | cons x xs =>
    intro p hp
    rcases List.mem_cons.mp hp with rfl | hp
    · exact (foldl_pick_spec xs p).2.1
    · exact (foldl_pick_spec xs x).2.2 p hp

/-- `defaultdict(lambda: defaultdict(int))[cs][s] += 1`. -/
def bumpNested : List (String × List (String × Nat)) → String → String →
    List (String × List (String × Nat))
  | [], cs, s => [(cs, bumpCount [] s)]
  | p :: rest, cs, s =>
    if p.1 = cs then (p.1, bumpCount p.2 s) :: rest else p :: bumpNested rest cs s

def sumCounts (l : List (String × Nat)) : Nat := (l.map Prod.snd).sum

/-- `sum(state_counts.values())` for one condition state. -/
def totalFor (m : List (String × List (String × Nat))) (cs : String) : Nat :=
  sumCounts (assocGet m cs)

theorem sumCounts_bumpCount (inner : List (String × Nat)) (s : String) :
    sumCounts (bumpCount inner s) = sumCounts inner + 1 := by
  induction inner with
  | nil => simp [bumpCount, sumCounts]
  | cons p rest ih =>
    by_cases h : p.1 = s
    · simp [bumpCount, h, sumCounts]
      omega
    · simp [bumpCount, h, sumCounts] at ih ⊢
      omega

theorem assocGet_bumpNested (m : List (String × List (String × Nat))) (cs cs' s : String) :
    assocGet (bumpNested m cs s) cs' =
      if cs' = cs then bumpCount (assocGet m cs) s else assocGet m cs' := by
  induction m with
  | nil =>
    by_cases h : cs' = cs
    · subst h
      simp [bumpNested, assocGet_cons, assocGet_nil]
    · have h' : ¬ cs = cs' := fun hc => h hc.symm
      simp [bumpNested, assocGet_cons, assocGet_nil, h, h']
  | cons q rest ih =>
    by_cases hq : q.1 = cs
    · rw [bumpNested, if_pos hq]
      by_cases h : cs' = cs
      · subst h
        simp [assocGet_cons, hq]
      · have hq'' : ¬ q.1 = cs' := fun hc => h (hc.symm.trans hq)
        simp only [assocGet_cons, hq'', if_false, h]
    · rw [bumpNested, if_neg hq]
      by_cases hk' : q.1 = cs'
      · have h : ¬ cs' = cs := fun hc => hq (hk'.trans hc)
        simp [assocGet_cons, hk', h]
      · simp [assocGet_cons, hk', ih, hq]

theorem totalFor_bumpNested (m : List (String × List (String × Nat))) (cs cs' s : String) :
    totalFor (bumpNested m cs s) cs' =
      totalFor m cs' + (if cs' = cs then 1 else 0) := by
  unfold totalFor
  rw [assocGet_bumpNested]
  by_cases h : cs' = cs
  · simp [h, sumCounts_bumpCount]
  · simp [h]

/-! ## DailyPatternMiner
(`PatternDiscovery.discover_daily_patterns` / `_group_by_day_and_hour`). -/

structure DailyPattern where
  entity_id : String
  domain : String
  day_of_week : Nat
  hour : Nat
  state : String
  confidence : ℚ
  occurrences : Nat
deriving DecidableEq

/-- One scan step of `_group_by_day_and_hour`: a well-formed event is appended
to its `(weekday, hour)` bucket, malformed events are skipped
(the `try/except` around `fromisoformat`). -/
def dailyStep (acc : List ((Nat × Nat) × List String)) (e : Entry) :
    List ((Nat × Nat) × List String) :=
  match e.state, e.last_changed with
  | some s, some t => pushAssoc acc (weekdayOf t, hourOf t) s
  | _, _ => acc

def group_by_day_and_hour (history : List Entry) : List ((Nat × Nat) × List String) :=
  history.foldl dailyStep []

/-- Declarative form of one `(weekday, hour)` bucket: the states of the
parseable events falling into it, in scan order. -/
def bucketStates (history : List Entry) (k : Nat × Nat) : List String :=
  history.filterMap (fun e =>
    match e.state, e.last_changed with
    | some s, some t => if (weekdayOf t, hourOf t) = k then some s else none
    | _, _ => none)

/-- Per-bucket body of the daily-pattern loop (lines 53-79 of the source). -/
def dailyFromBucket (cfg : Config) (eid : String) (b : (Nat × Nat) × List String) :
    List DailyPattern :=
  if b.2.length < cfg.min_occurrences then []
  else if countsOf b.2 = [] then []
  else if cfg.confidence_threshold ≤ ((firstArgmax (countsOf b.2)).2 : ℚ) / (b.2.length : ℚ) then
    [⟨eid, domainOf eid, b.1.1, b.1.2, (firstArgmax (countsOf b.2)).1,
      ((firstArgmax (countsOf b.2)).2 : ℚ) / (b.2.length : ℚ), (firstArgmax (countsOf b.2)).2⟩]
  else []

def discover_daily_patterns (cfg : Config) (ehist : EntityHistory) : List DailyPattern :=
  ehist.flatMap (fun p =>
    if p.2.length < cfg.min_occurrences then []
    else (group_by_day_and_hour p.2).flatMap (dailyFromBucket cfg p.1))

/-- The majority count of a bucket: the count of the first-encountered most
common state. -/
def majorityCount (states : List String) : Nat := (firstArgmax (countsOf states)).2

theorem assocGet_foldl_dailyStep (history : List Entry)
    (acc : List ((Nat × Nat) × List String)) (k : Nat × Nat) :
    assocGet (history.foldl dailyStep acc) k = assocGet acc k ++ bucketStates history k := by
  induction history generalizing acc with
  | nil => simp [bucketStates]
  | cons e rest ih =>
    rw [List.foldl_cons]
    cases hs : e.state with
    | none =>
      have h1 : dailyStep acc e = acc := by simp [dailyStep, hs]
      have h2 : bucketStates (e :: rest) k = bucketStates rest k := by
        simp [bucketStates, List.filterMap_cons, hs]
      rw [h1, h2, ih]
    | some s =>
      cases ht : e.last_changed with
      | none =>
        have h1 : dailyStep acc e = acc := by simp [dailyStep, hs, ht]
        have h2 : bucketStates (e :: rest) k = bucketStates rest k := by
          simp [bucketStates, List.filterMap_cons, hs, ht]
        rw [h1, h2, ih]
      | some t =>
        have h1 : dailyStep acc e = pushAssoc acc (weekdayOf t, hourOf t) s := by
          simp [dailyStep, hs, ht]
        rw [h1, ih]
        by_cases hk : (weekdayOf t, hourOf t) = k
        · have h2 : bucketStates (e :: rest) k = s :: bucketStates rest k := by
            simp [bucketStates, List.filterMap_cons, hs, ht, hk]
          rw [h2, assocGet_pushAssoc, if_pos hk.symm, hk]
          simp
        · have h2 : bucketStates (e :: rest) k = bucketStates rest k := by
            simp [bucketStates, List.filterMap_cons, hs, ht, hk]
          rw [h2, assocGet_pushAssoc, if_neg (fun hc => hk hc.symm)]

theorem assocGet_group (history : List Entry) (k : Nat × Nat) :
    assocGet (group_by_day_and_hour history) k = bucketStates history k := by
  rw [group_by_day_and_hour, assocGet_foldl_dailyStep, assocGet_nil, List.nil_append]

theorem keysOf_foldl_dailyStep_nodup (history : List Entry)
    (acc : List ((Nat × Nat) × List String)) (h : (keysOf acc).Nodup) :
    (keysOf (history.foldl dailyStep acc)).Nodup := by
  induction history generalizing acc with
  | nil => exact h
  | cons e rest ih =>
    rw [List.foldl_cons]
    refine ih _ ?_
    cases hs : e.state with
    | none => simpa [dailyStep, hs] using h
    | some s =>
      cases ht : e.last_changed with
      | none => simpa [dailyStep, hs, ht] using h
      | some t =>
        have h1 : dailyStep acc e = pushAssoc acc (weekdayOf t, hourOf t) s := by
          simp [dailyStep, hs, ht]
        rw [h1, keysOf_pushAssoc]
        by_cases hk : (weekdayOf t, hourOf t) ∈ keysOf acc
        · rwa [if_pos hk]
        · rw [if_neg hk]
          simp [List.nodup_append, h, hk]

theorem keysOf_group_nodup (history : List Entry) :
    (keysOf (group_by_day_and_hour history)).Nodup :=
  keysOf_foldl_dailyStep_nodup history [] List.nodup_nil

theorem assocGet_of_mem_of_nodup [DecidableEq κ] (m : List (κ × List ν)) (k : κ)
    (vs : List ν) (hnd : (keysOf m).Nodup) (hmem : (k, vs) ∈ m) :
    assocGet m k = vs := by
  induction m with
  | nil => cases hmem
  | cons q rest ih =>
    rcases List.mem_cons.mp hmem with rfl | hmem'
    · simp [assocGet_cons]
    · have hk : k ∈ keysOf rest := List.mem_map_of_mem Prod.fst hmem'
      have hnd' : q.1 ∉ keysOf rest ∧ (keysOf rest).Nodup := by
        rw [keysOf, List.map_cons] at hnd
        exact ⟨(List.nodup_cons.mp hnd).1, (List.nodup_cons.mp hnd).2⟩
      have hq : q.1 ≠ k := fun hc => hnd'.1 (hc ▸ hk)
      rw [assocGet_cons, if_neg hq]
      exact ih hnd'.2 hmem'

theorem mem_of_assocGet_ne_nil [DecidableEq κ] (m : List (κ × List ν)) (k : κ)
    (h : assocGet m k ≠ []) : (k, assocGet m k) ∈ m := by
  cases hf : m.find? (fun p => decide (p.1 = k)) with
  | none =>
    exfalso
    apply h
    unfold assocGet
    rw [hf]
  | some p =>
    have hget : assocGet m k = p.2 := by
      unfold assocGet
      rw [hf]
    rw [hget]
    have hp : p ∈ m := List.mem_of_find?_eq_some hf
    have hk : p.1 = k := by simpa using List.find?_some hf
    obtain ⟨a, b⟩ := p
    simp only at hk hget
    rw [← hk]
    exact hp

theorem mem_pushAssoc_snd_ne_nil [DecidableEq κ] (m : List (κ × List ν)) (k : κ) (v : ν)
    (hm : ∀ q ∈ m, q.2 ≠ []) : ∀ q ∈ pushAssoc m k v, q.2 ≠ [] := by
  induction m with
  | nil =>
    intro q hq
    rcases List.mem_cons.mp hq with rfl | h
    · simp
    · cases h
  | cons p rest ih =>
    intro q hq
    by_cases hp : p.1 = k
    · rw [pushAssoc, if_pos hp] at hq
      rcases List.mem_cons.mp hq with rfl | h
      · simp
      · exact hm q (List.mem_cons_of_mem _ h)
    · rw [pushAssoc, if_neg hp] at hq
      rcases List.mem_cons.mp hq with rfl | h
      · exact hm q (List.mem_cons_self _ _)
      · exact ih (fun r hr => hm r (List.mem_cons_of_mem _ hr)) q h

theorem group_snd_ne_nil (history : List Entry) :
    ∀ q ∈ group_by_day_and_hour history, q.2 ≠ [] := by
  have main : ∀ (hist : List Entry) (acc : List ((Nat × Nat) × List String)),
      (∀ q ∈ acc, q.2 ≠ []) → ∀ q ∈ hist.foldl dailyStep acc, q.2 ≠ [] := by
    intro hist
    induction hist with
    | nil => intro acc h; exact h
    | cons e rest ih =>
      intro acc h
      rw [List.foldl_cons]
      refine ih _ ?_
      cases hs : e.state with
      | none => simpa [dailyStep, hs] using h
      | some s =>
        cases ht : e.last_changed with
        | none => simpa [dailyStep, hs, ht] using h
        | some t =>
          have h1 : dailyStep acc e = pushAssoc acc (weekdayOf t, hourOf t) s := by
            simp [dailyStep, hs, ht]
          rw [h1]
          exact mem_pushAssoc_snd_ne_nil acc _ s h
  exact main history [] (by intro q hq; cases hq)

theorem mem_dailyFromBucket (cfg : Config) (eid : String) (b : (Nat × Nat) × List String)
    (p : DailyPattern) (hp : p ∈ dailyFromBucket cfg eid b) :
    ¬ b.2.length < cfg.min_occurrences ∧ b.2 ≠ [] ∧
    cfg.confidence_threshold ≤ ((firstArgmax (countsOf b.2)).2 : ℚ) / (b.2.length : ℚ) ∧
    p = ⟨eid, domainOf eid, b.1.1, b.1.2, (firstArgmax (countsOf b.2)).1,
      ((firstArgmax (countsOf b.2)).2 : ℚ) / (b.2.length : ℚ),
      (firstArgmax (countsOf b.2)).2⟩ := by
  unfold dailyFromBucket at hp
  by_cases h1 : b.2.length < cfg.min_occurrences
  · rw [if_pos h1] at hp
    cases hp
  · rw [if_neg h1] at hp
    by_cases h2 : countsOf b.2 = []
    · rw [if_pos h2] at hp
      cases hp
    · rw [if_neg h2] at hp
      by_cases h3 : cfg.confidence_threshold ≤
          ((firstArgmax (countsOf b.2)).2 : ℚ) / (b.2.length : ℚ)
      · rw [if_pos h3] at hp
        have hb : b.2 ≠ [] := by
          intro hc
          apply h2
          rw [hc]
          rfl
        exact ⟨h1, hb, h3, List.mem_singleton.mp hp⟩
      · rw [if_neg h3] at hp
        cases hp

theorem dailyFromBucket_emits (cfg : Config) (eid : String) (b : (Nat × Nat) × List String)
    (h1 : ¬ b.2.length < cfg.min_occurrences) (h2 : countsOf b.2 ≠ [])
    (h3 : cfg.confidence_threshold ≤ ((firstArgmax (countsOf b.2)).2 : ℚ) / (b.2.length : ℚ)) :
    (⟨eid, domainOf eid, b.1.1, b.1.2, (firstArgmax (countsOf b.2)).1,
      ((firstArgmax (countsOf b.2)).2 : ℚ) / (b.2.length : ℚ),
      (firstArgmax (countsOf b.2)).2⟩ : DailyPattern) ∈ dailyFromBucket cfg eid b := by
  unfold dailyFromBucket
  rw [if_neg h1, if_neg h2, if_pos h3]
  exact List.mem_singleton.mpr rfl

theorem mem_discover_daily (cfg : Config) (ehist : EntityHistory) (p : DailyPattern) :
    p ∈ discover_daily_patterns cfg ehist ↔
    ∃ q ∈ ehist, ¬ q.2.length < cfg.min_occurrences ∧
      ∃ b ∈ group_by_day_and_hour q.2, p ∈ dailyFromBucket cfg q.1 b := by
  unfold discover_daily_patterns
  rw [List.mem_flatMap]
  constructor
  · rintro ⟨q, hq, hp⟩
    by_cases hl : q.2.length < cfg.min_occurrences
    · rw [if_pos hl] at hp
      cases hp
    · rw [if_neg hl] at hp
      exact ⟨q, hq, hl, List.mem_flatMap.mp hp⟩
  · rintro ⟨q, hq, hl, b, hb, hp⟩
    refine ⟨q, hq, ?_⟩
    rw [if_neg hl]
    exact List.mem_flatMap.mpr ⟨b, hb, hp⟩

theorem majorityCount_const (states : List String) (s0 : String) (hne : states ≠ [])
    (h : ∀ s ∈ states, s = s0) : majorityCount states = states.length := by
  rw [majorityCount, countsOf_const states s0 hne h]
  rfl

/-- **C2.**  For every entity whose (raw) history length is at least
`min_occurrences` and every nonempty `(weekday, hour)` bucket of its parseable
events holding at least `min_occurrences` events, the daily miner emits a
pattern for that bucket (with `confidence = majority_count / bucket_size`)
iff that confidence reaches `confidence_threshold`; the majority count is a
maximum of the bucket's state tally, every emitted pattern for the bucket
carries exactly that confidence, and a bucket whose events all share one state
has confidence 1. -/
theorem daily_bucket_confidence (cfg : Config) (ehist : EntityHistory)
    (hnd : (ehist.map Prod.fst).Nodup)
    (eid : String) (hist : List Entry) (hmem : (eid, hist) ∈ ehist)
    (d h : Nat)
    (hlen : cfg.min_occurrences ≤ hist.length)
    (hbne : bucketStates hist (d, h) ≠ [])
    (hbcount : cfg.min_occurrences ≤ (bucketStates hist (d, h)).length) :
    ((∃ p ∈ discover_daily_patterns cfg ehist,
        p.entity_id = eid ∧ p.day_of_week = d ∧ p.hour = h ∧
        p.confidence = (majorityCount (bucketStates hist (d, h)) : ℚ) /
          ((bucketStates hist (d, h)).length : ℚ)) ↔
      cfg.confidence_threshold ≤ (majorityCount (bucketStates hist (d, h)) : ℚ) /
        ((bucketStates hist (d, h)).length : ℚ)) ∧
    (∀ q ∈ countsOf (bucketStates hist (d, h)),
      q.2 ≤ majorityCount (bucketStates hist (d, h))) ∧
    (∀ p ∈ discover_daily_patterns cfg ehist,
      p.entity_id = eid → p.day_of_week = d → p.hour = h →
      p.confidence = (majorityCount (bucketStates hist (d, h)) : ℚ) /
        ((bucketStates hist (d, h)).length : ℚ)) ∧
    (∀ s0, (∀ s ∈ bucketStates hist (d, h), s = s0) →
      (majorityCount (bucketStates hist (d, h)) : ℚ) /
        ((bucketStates hist (d, h)).length : ℚ) = 1) := by
  have key : ∀ p ∈ discover_daily_patterns cfg ehist,
      p.entity_id = eid → p.day_of_week = d → p.hour = h →
      p.confidence = (majorityCount (bucketStates hist (d, h)) : ℚ) /
        ((bucketStates hist (d, h)).length : ℚ) ∧
      cfg.confidence_threshold ≤ p.confidence := by
    intro p hp heid hd hh
    rcases (mem_discover_daily cfg ehist p).mp hp with ⟨q, hq, hql, b, hb, hpb⟩
    rcases mem_dailyFromBucket cfg q.1 b p hpb with ⟨_, _, hconf, hpeq⟩
    have heq : q.1 = eid := by rw [hpeq] at heid; exact heid
    have hq2 : q.2 = hist := by
      have h1 : assocGet ehist eid = hist :=
        assocGet_of_mem_of_nodup ehist eid hist hnd hmem
      have h2 : assocGet ehist q.1 = q.2 := by
        refine assocGet_of_mem_of_nodup ehist q.1 q.2 hnd ?_
        exact (Prod.mk.eta (p := q)) ▸ hq
      rw [heq] at h2
      rw [h1] at h2
      exact h2.symm
    have hbkey : b.1 = (d, h) := by
      rw [hpeq] at hd hh
      simp only at hd hh
      cases hb1 : b.1 with
      | mk x y =>
        rw [hb1] at hd hh
        simp at hd hh
        rw [hd, hh]
    have hbval : b.2 = bucketStates hist (d, h) := by
      have h1 : assocGet (group_by_day_and_hour q.2) b.1 = b.2 := by
        refine assocGet_of_mem_of_nodup _ b.1 b.2 (keysOf_group_nodup q.2) ?_
        exact (Prod.mk.eta (p := b)) ▸ hb
      rw [assocGet_group] at h1
      rw [← h1, hq2, hbkey]
    constructor
    · rw [hpeq]
      simp only [majorityCount]
      rw [hbval]
    · rw [hpeq]
      exact hconf
  refine ⟨⟨?_, ?_⟩, ?_, ?_, ?_⟩
  · rintro ⟨p, hp, heid, hd, hh, hconf⟩
    rcases key p hp heid hd hh with ⟨hc1, hc2⟩
    rw [← hc1]
    exact hc2
  · intro hτ
    have hg : ((d, h), bucketStates hist (d, h)) ∈ group_by_day_and_hour hist := by
      have := mem_of_assocGet_ne_nil (group_by_day_and_hour hist) (d, h)
        (by rw [assocGet_group]; exact hbne)
      rwa [assocGet_group] at this
    have hcne : countsOf (bucketStates hist (d, h)) ≠ [] := countsOf_ne_nil _ hbne
    have hpat := dailyFromBucket_emits cfg eid ((d, h), bucketStates hist (d, h))
      (by simp only; omega) (by simpa using hcne) (by simpa [majorityCount] using hτ)
    refine ⟨_, (mem_discover_daily cfg ehist _).mpr
      ⟨(eid, hist), hmem, by simp only; omega, _, hg, hpat⟩, ?_⟩
    simp [majorityCount]
  · exact fun q hq => firstArgmax_le _ q hq
  · intro p hp heid hd hh
    exact (key p hp heid hd hh).1
  · intro s0 hs0
    rw [majorityCount_const _ s0 hbne hs0]
    have : ((bucketStates hist (d, h)).length : ℚ) ≠ 0 := by
      simp only [ne_eq, Nat.cast_eq_zero, List.length_eq_zero]
      exact hbne
    exact div_self this

def cfgW : Config := {}

def histW : List Entry :=
  [⟨none, some "on", some 370800⟩, ⟨none, some "on", some 975600⟩,
   ⟨none, some "on", some 1580400⟩]

def ehistW : EntityHistory := [("light.living_room", histW)]

unseal Rat.add Rat.mul Rat.inv Rat.sub in
theorem daily_bucket_confidence_witness :
    (List.map Prod.fst ehistW).Nodup ∧
    (("light.living_room", histW) ∈ ehistW) ∧
    cfgW.min_occurrences ≤ histW.length ∧
    bucketStates histW (0, 7) ≠ [] ∧
    cfgW.min_occurrences ≤ (bucketStates histW (0, 7)).length ∧
    (((∃ p ∈ discover_daily_patterns cfgW ehistW,
        p.entity_id = "light.living_room" ∧ p.day_of_week = 0 ∧ p.hour = 7 ∧
        p.confidence = (majorityCount (bucketStates histW (0, 7)) : ℚ) /
          ((bucketStates histW (0, 7)).length : ℚ)) ↔
      cfgW.confidence_threshold ≤ (majorityCount (bucketStates histW (0, 7)) : ℚ) /
        ((bucketStates histW (0, 7)).length : ℚ)) ∧
    (∀ q ∈ countsOf (bucketStates histW (0, 7)),
      q.2 ≤ majorityCount (bucketStates histW (0, 7))) ∧
    (∀ p ∈ discover_daily_patterns cfgW ehistW,
      p.entity_id = "light.living_room" → p.day_of_week = 0 → p.hour = 7 →
      p.confidence = (majorityCount (bucketStates histW (0, 7)) : ℚ) /
        ((bucketStates histW (0, 7)).length : ℚ)) ∧
    (∀ s0, (∀ s ∈ bucketStates histW (0, 7), s = s0) →
      (majorityCount (bucketStates histW (0, 7)) : ℚ) /
        ((bucketStates histW (0, 7)).length : ℚ) = 1)) :=
  ⟨by decide, by decide, by decide,
   by decide, by decide,
   daily_bucket_confidence cfgW ehistW (by decide) "light.living_room" histW
     (by decide) 0 7 (by decide)
     (by decide) (by decide)⟩

/-! ## SequencePatternMiner
(`PatternDiscovery.discover_sequence_patterns` / `_count_sequence_occurrences`).
The flattened timeline entry carries `entity_id`, `timestamp`, `state`,
`domain`.  Python sorts the flattened list by the raw ISO timestamp string,
which for parseable timestamps agrees with sorting by parsed time; Python's
stable sort is `sSort` by ascending timestamp.  The window is
`timedelta(minutes=2)` = 120 seconds. -/

structure SeqStep where
  entity_id : String
  state : String
  domain : String
deriving DecidableEq

structure SeqPattern where
  steps : List SeqStep
  sequence_key : List (String × String)
  confidence : ℚ
  occurrences : Nat
deriving DecidableEq

structure TEntry where
  entity_id : String
  ts : ℚ
  state : String
  domain : String
deriving DecidableEq

/-- Flattening of all entries having both `last_changed` and `state`
(lines 94-103 of the source), in dict-iteration order. -/
def flattenHistory (ehist : EntityHistory) : List TEntry :=
  ehist.flatMap (fun q => q.2.filterMap (fun e =>
    match e.state, e.last_changed with
    | some s, some t => some ⟨q.1, t, s, domainOf q.1⟩
    | _, _ => none))

/-- `all_entries.sort(key=lambda x: x['timestamp'])` (stable). -/
def timeline (ehist : EntityHistory) : List TEntry :=
  sSort (fun a b => decide (a.ts ≤ b.ts)) (flattenHistory ehist)

/-- The inner absorbing loop (lines 119-129): take events while inside the
2-minute window, keeping only entities different from the seed, and stop at
the first event outside the window. -/
def collectWindow (eid0 : String) (t0 : ℚ) : List TEntry → List TEntry
  | [] => []
  | e :: rest =>
    if e.ts - t0 ≤ 120 then
      if e.entity_id ≠ eid0 then e :: collectWindow eid0 t0 rest
      else collectWindow eid0 t0 rest
    else []

/-- The candidate sequence seeded at `start` (`sequence = [start_entry] ++ ...`). -/
def seqCandidate (start : TEntry) (rest : List TEntry) : List TEntry :=
  start :: collectWindow start.entity_id start.ts rest

def toStep (e : TEntry) : SeqStep := ⟨e.entity_id, e.state, e.domain⟩

/-- `tuple((e['entity_id'], e['state']) for e in sequence)`. -/
def shapeOf (l : List TEntry) : List (String × String) :=
  l.map (fun e => (e.entity_id, e.state))

/-- The inner search of `_count_sequence_occurrences` (lines 378-387): scan
forward from the seed, stop at the first event beyond the window, succeed on
the first event matching the step's entity and state. -/
def findInWindow (t0 : ℚ) (a s : String) : List TEntry → Bool
  | [] => false
  | e :: rest =>
    if 120 < e.ts - t0 then false
    else if e.entity_id = a ∧ e.state = s then true
    else findInWindow t0 a s rest

/-- The outer seed scan of `_count_sequence_occurrences`: each later step is
searched independently from the position after the seed. -/
def seqOccAux (s0 : String × String) (srest : List (String × String)) : List TEntry → Nat
  | [] => 0
  | e :: rest =>
    (if e.entity_id = s0.1 ∧ e.state = s0.2 ∧
        srest.all (fun sj => findInWindow e.ts sj.1 sj.2 rest) then 1 else 0) +
    seqOccAux s0 srest rest

def count_sequence_occurrences (all : List TEntry) (shape : List (String × String)) : Nat :=
  match shape with
  | [] => 0
  | s0 :: srest => seqOccAux s0 srest all

/-- Body of one iteration of the sliding-window loop (lines 113-155):
candidates shorter than 3 are dropped, a candidate whose `sequence_key`
already occurs in the accumulated pattern list is dropped, and otherwise the
pattern is appended when its occurrence count reaches `min_occurrences`. -/
def seqStepFold (cfg : Config) (all : List TEntry) (start : TEntry) (rest : List TEntry)
    (acc : List SeqPattern) : List SeqPattern :=
  if 3 ≤ (seqCandidate start rest).length then
    if acc.any (fun q => decide (q.sequence_key = shapeOf (seqCandidate start rest))) then acc
    else if cfg.min_occurrences ≤
        count_sequence_occurrences all (shapeOf (seqCandidate start rest)) then
      acc ++ [⟨(seqCandidate start rest).map toStep, shapeOf (seqCandidate start rest),
        min 1 ((count_sequence_occurrences all (shapeOf (seqCandidate start rest)) : ℚ) / 10),
        count_sequence_occurrences all (shapeOf (seqCandidate start rest))⟩]
    else acc
  else acc

def seqScanAux (cfg : Config) (all : List TEntry) :
    List TEntry → List SeqPattern → List SeqPattern
  | [], acc => acc
  | start :: rest, acc => seqScanAux cfg all rest (seqStepFold cfg all start rest acc)

def discover_sequence_patterns (cfg : Config) (ehist : EntityHistory) : List SeqPattern :=
  seqScanAux cfg (timeline ehist) (timeline ehist) []

theorem collectWindow_entity (eid0 : String) (t0 : ℚ) :
    ∀ l, ∀ e ∈ collectWindow eid0 t0 l, e.entity_id ≠ eid0 := by
  intro l
  induction l with
  | nil => intro e he; cases he
  | cons x rest ih =>
    intro e he
    rw [collectWindow] at he
    by_cases h1 : x.ts - t0 ≤ 120
    · rw [if_pos h1] at he
      by_cases h2 : x.entity_id ≠ eid0
      · rw [if_pos h2] at he
        rcases List.mem_cons.mp he with rfl | he'
        · exact h2
        · exact ih e he'
      · rw [if_neg h2] at he
        exact ih e he
    · rw [if_neg h1] at he
      cases he

theorem mem_seqStepFold (cfg : Config) (all : List TEntry) (start : TEntry)
    (rest : List TEntry) (acc : List SeqPattern) (p : SeqPattern)
    (hp : p ∈ seqStepFold cfg all start rest acc) :
    p ∈ acc ∨
    (3 ≤ (seqCandidate start rest).length ∧
     cfg.min_occurrences ≤ count_sequence_occurrences all (shapeOf (seqCandidate start rest)) ∧
     p = ⟨(seqCandidate start rest).map toStep, shapeOf (seqCandidate start rest),
       min 1 ((count_sequence_occurrences all (shapeOf (seqCandidate start rest)) : ℚ) / 10),
       count_sequence_occurrences all (shapeOf (seqCandidate start rest))⟩) := by
  unfold seqStepFold at hp
  by_cases h1 : 3 ≤ (seqCandidate start rest).length
  · rw [if_pos h1] at hp
    by_cases h2 :
        (acc.any (fun q => decide (q.sequence_key = shapeOf (seqCandidate start rest)))) = true
    · rw [if_pos h2] at hp
      exact Or.inl hp
    · rw [if_neg h2] at hp
      by_cases h3 : cfg.min_occurrences ≤
          count_sequence_occurrences all (shapeOf (seqCandidate start rest))
      · rw [if_pos h3] at hp
        rcases List.mem_append.mp hp with h | h
        · exact Or.inl h
        · exact Or.inr ⟨h1, h3, List.mem_singleton.mp h⟩
      · rw [if_neg h3] at hp
        exact Or.inl hp
  · rw [if_neg h1] at hp
    exact Or.inl hp

theorem mem_seqScanAux (cfg : Config) (all : List TEntry) :
    ∀ (l : List TEntry) (acc : List SeqPattern) (p : SeqPattern),
      p ∈ seqScanAux cfg all l acc →
      p ∈ acc ∨ ∃ start rest, 3 ≤ (seqCandidate start rest).length ∧
        cfg.min_occurrences ≤
          count_sequence_occurrences all (shapeOf (seqCandidate start rest)) ∧
        p = ⟨(seqCandidate start rest).map toStep, shapeOf (seqCandidate start rest),
          min 1 ((count_sequence_occurrences all (shapeOf (seqCandidate start rest)) : ℚ) / 10),
          count_sequence_occurrences all (shapeOf (seqCandidate start rest))⟩ := by
  intro l
  induction l with
  | nil =>
    intro acc p hp
    exact Or.inl hp
  | cons start rest ih =>
    intro acc p hp
    rw [seqScanAux] at hp
    rcases ih _ p hp with h | h
    · rcases mem_seqStepFold cfg all start rest acc p h with h' | h'
      · exact Or.inl h'
      · exact Or.inr ⟨start, rest, h'⟩
    · exact Or.inr h

theorem seqScanAux_keys_nodup (cfg : Config) (all : List TEntry) :
    ∀ (l : List TEntry) (acc : List SeqPattern),
      ((acc.map (fun p => p.sequence_key)).Nodup) →
      (((seqScanAux cfg all l acc).map (fun p => p.sequence_key)).Nodup) := by
  intro l
  induction l with
  | nil => intro acc h; exact h
  | cons start rest ih =>
    intro acc h
    rw [seqScanAux]
    refine ih _ ?_
    unfold seqStepFold
    by_cases h1 : 3 ≤ (seqCandidate start rest).length
    · rw [if_pos h1]
      by_cases h2 : (acc.any
          (fun q => decide (q.sequence_key = shapeOf (seqCandidate start rest)))) = true
      · rw [if_pos h2]
        exact h
      · rw [if_neg h2]
        by_cases h3 : cfg.min_occurrences ≤
            count_sequence_occurrences all (shapeOf (seqCandidate start rest))
        · rw [if_pos h3, List.map_append]
          have hnot : shapeOf (seqCandidate start rest) ∉
              acc.map (fun p => p.sequence_key) := by
            intro hc
            rcases List.mem_map.mp hc with ⟨q, hq, hkey⟩
            apply h2
            rw [List.any_eq_true]
            exact ⟨q, hq, by simp [hkey]⟩
          simp only [List.map_cons, List.map_nil]
          rw [List.nodup_append]
          refine ⟨h, List.nodup_singleton _, ?_⟩
          intro a ha hb
          rcases List.mem_singleton.mp hb with rfl
          exact hnot ha
        · rw [if_neg h3]
          exact h
    · rw [if_neg h1]
      exact h

/-- **C5 (amended).**  The duplicate-shape check does deduplicate: the
accumulator it inspects persists across the whole timeline scan, so no two
returned sequence patterns share a `sequence_key`. -/
theorem sequence_keys_nodup (cfg : Config) (ehist : EntityHistory) :
    ((discover_sequence_patterns cfg ehist).map (fun p => p.sequence_key)).Nodup := by
  unfold discover_sequence_patterns
  exact seqScanAux_keys_nodup cfg _ _ [] (by simp)

def cfgSeq1 : Config := { min_occurrences := 1 }

def cfgSeq2 : Config := { min_occurrences := 2 }

def ehistTriple : EntityHistory :=
  [("light.a", [⟨none, some "on", some 0⟩, ⟨none, some "on", some 1000⟩,
    ⟨none, some "on", some 2000⟩]),
   ("light.b", [⟨none, some "on", some 10⟩, ⟨none, some "on", some 1010⟩,
    ⟨none, some "on", some 2010⟩]),
   ("light.c", [⟨none, some "on", some 20⟩, ⟨none, some "on", some 1020⟩,
    ⟨none, some "on", some 2020⟩])]

unseal Rat.add Rat.mul Rat.inv Rat.sub in
/-- **C5 (counterexample to the claim as stated).**  On the natural witness
input — the same three-step shape recurring at three seed positions, each
reaching the occurrence threshold — the scan still returns only one pattern
for that shape: the dedup check is effective, contradicting the claimed
existence of an input producing two patterns with equal `sequence_key`. -/
theorem sequence_dedup_effective_at_repeat_input :
    (discover_sequence_patterns cfgSeq2 ehistTriple).map (fun p => p.sequence_key) =
      [[("light.a", "on"), ("light.b", "on"), ("light.c", "on")]] := by decide

def ehistRepeat : EntityHistory :=
  [("light.a", [⟨none, some "on", some 0⟩]),
   ("light.b", [⟨none, some "on", some 10⟩, ⟨none, some "off", some 30⟩]),
   ("light.c", [⟨none, some "on", some 20⟩])]

unseal Rat.add Rat.mul Rat.inv Rat.sub in
/-- **C3.**  Every emitted sequence pattern has at least 3 steps, no step after
the first shares the seed's entity, and the seed entity occurs exactly once
(in first position); non-seed entities may repeat, as witnessed on a concrete
input whose emitted pattern repeats `light.b` in its tail. -/
theorem sequence_steps_shape :
    (∀ (cfg : Config) (ehist : EntityHistory), ∀ p ∈ discover_sequence_patterns cfg ehist,
      3 ≤ p.steps.length ∧
      ∃ hd tl, p.steps = hd :: tl ∧ (∀ s ∈ tl, s.entity_id ≠ hd.entity_id) ∧
        p.steps.countP (fun s => decide (s.entity_id = hd.entity_id)) = 1) ∧
    (∃ p ∈ discover_sequence_patterns cfgSeq1 ehistRepeat,
      ¬ (p.steps.tail.map (fun s => s.entity_id)).Nodup) := by
  constructor
  · intro cfg ehist p hp
    rcases mem_seqScanAux cfg (timeline ehist) (timeline ehist) [] p hp with h | h
    · cases h
    · rcases h with ⟨start, rest, hlen, _, heq⟩
      subst heq
      refine ⟨by rw [List.length_map]; exact hlen, toStep start,
        (collectWindow start.entity_id start.ts rest).map toStep, ?_, ?_, ?_⟩
      · rw [seqCandidate, List.map_cons]
      · intro s hs
        rcases List.mem_map.mp hs with ⟨e, he, rfl⟩
        exact collectWindow_entity start.entity_id start.ts rest e he
      · rw [seqCandidate, List.map_cons, List.countP_cons]
        have h0 : ((collectWindow start.entity_id start.ts rest).map toStep).countP
            (fun s => decide (s.entity_id = (toStep start).entity_id)) = 0 := by
          rw [List.countP_eq_zero]
          intro s hs
          rcases List.mem_map.mp hs with ⟨e, he, rfl⟩
          simpa using collectWindow_entity start.entity_id start.ts rest e he
        rw [h0]
        simp
  · decide

def seqPatRepeat : SeqPattern :=
  (discover_sequence_patterns cfgSeq1 ehistRepeat).headD ⟨[], [], 0, 0⟩

unseal Rat.add Rat.mul Rat.inv Rat.sub in
theorem sequence_steps_shape_witness :
    (seqPatRepeat ∈ discover_sequence_patterns cfgSeq1 ehistRepeat) ∧
    (3 ≤ seqPatRepeat.steps.length ∧
     ∃ hd tl, seqPatRepeat.steps = hd :: tl ∧ (∀ s ∈ tl, s.entity_id ≠ hd.entity_id) ∧
       seqPatRepeat.steps.countP (fun s => decide (s.entity_id = hd.entity_id)) = 1) :=
  ⟨by decide, sequence_steps_shape.1 cfgSeq1 ehistRepeat seqPatRepeat (by decide)⟩

theorem findInWindow_iff (t0 : ℚ) (a s : String) (l : List TEntry) :
    findInWindow t0 a s l = true ↔
    ∃ x ∈ l.takeWhile (fun x => decide (x.ts - t0 ≤ 120)), x.entity_id = a ∧ x.state = s := by
  induction l with
  | nil => simp [findInWindow]
  | cons e rest ih =>
    by_cases hw : 120 < e.ts - t0
    · have hp : (decide (e.ts - t0 ≤ 120)) = false :=
        decide_eq_false (not_le.mpr hw)

      rw [findInWindow, if_pos hw, List.takeWhile_cons, hp]
      simp
    · have hw' : e.ts - t0 ≤ 120 := le_of_not_lt hw
      have hp : (decide (e.ts - t0 ≤ 120)) = true := decide_eq_true hw'
      rw [findInWindow, if_neg hw, List.takeWhile_cons, hp]
      simp only [if_true]
      by_cases hm : e.entity_id = a ∧ e.state = s
      · rw [if_pos hm]
        simp only [true_iff]
        exact ⟨e, List.mem_cons_self _ _, hm⟩
      · rw [if_neg hm, ih]
        constructor
        · rintro ⟨x, hx, hxm⟩
          exact ⟨x, List.mem_cons_of_mem _ hx, hxm⟩
        · rintro ⟨x, hx, hxm⟩
          rcases List.mem_cons.mp hx with rfl | hx'
          · exact absurd hxm hm
          · exact ⟨x, hx', hxm⟩

def ehistSwap : EntityHistory :=
  [("light.a", [⟨none, some "on", some 0⟩, ⟨none, some "on", some 1000⟩]),
   ("light.b", [⟨none, some "on", some 10⟩, ⟨none, some "on", some 1020⟩]),
   ("light.c", [⟨none, some "on", some 20⟩, ⟨none, some "on", some 1010⟩])]

/-- Occurrence counting as the claim reads it: the later steps must appear in
the stated order at increasing timeline positions inside the window. -/
def orderedMatch (t0 : ℚ) : List (String × String) → List TEntry → Bool
  | [], _ => true
  | _ :: _, [] => false
  | s :: ss, e :: rest =>
    if 120 < e.ts - t0 then false
    else if e.entity_id = s.1 ∧ e.state = s.2 then orderedMatch t0 ss rest
    else orderedMatch t0 (s :: ss) rest

def orderedOccAux (s0 : String × String) (srest : List (String × String)) :
    List TEntry → Nat
  | [] => 0
  | e :: rest =>
    (if e.entity_id = s0.1 ∧ e.state = s0.2 ∧ orderedMatch e.ts srest rest then 1 else 0) +
    orderedOccAux s0 srest rest

def orderedOccurrences (all : List TEntry) (shape : List (String × String)) : Nat :=
  match shape with
  | [] => 0
  | s0 :: srest => orderedOccAux s0 srest all

unseal Rat.add Rat.mul Rat.inv Rat.sub in
/-- **C4 (counterexample to the claim as stated).**  On a timeline where the
candidate shape `[a, b, c]` also re-occurs with `b` and `c` swapped, the
miner's `occurrences` (2) differs from the in-order count (1): the code
searches each later step independently from the seed, not in the stated
order. -/
theorem sequence_ordered_counterexample :
    ∃ p ∈ discover_sequence_patterns cfgSeq2 ehistSwap,
      p.occurrences ≠ orderedOccurrences (timeline ehistSwap) p.sequence_key := by decide

/-- **C4 (amended).**  Every emitted sequence pattern's `occurrences` equals
`_count_sequence_occurrences` on the full timeline at the pattern's shape:
the number of seed positions matching the first `(entity_id, state)` pair
such that every later pair is found — each searched independently from the
seed — somewhere in the 2-minute window after the seed (so matches need not
be in order and may reuse one event); `confidence = min(1, occurrences/10)`
and emission requires `occurrences ≥ min_occurrences`. -/
theorem sequence_occurrence_semantics :
    (∀ (cfg : Config) (ehist : EntityHistory), ∀ p ∈ discover_sequence_patterns cfg ehist,
      p.sequence_key = p.steps.map (fun st => (st.entity_id, st.state)) ∧
      p.occurrences = count_sequence_occurrences (timeline ehist) p.sequence_key ∧
      p.confidence = min 1 ((p.occurrences : ℚ) / 10) ∧
      cfg.min_occurrences ≤ p.occurrences) ∧
    (∀ (t0 : ℚ) (a s : String) (l : List TEntry), findInWindow t0 a s l = true ↔
      ∃ x ∈ l.takeWhile (fun x => decide (x.ts - t0 ≤ 120)), x.entity_id = a ∧ x.state = s) ∧
    (∀ (s0 : String × String) (srest : List (String × String)) (e : TEntry)
      (rest : List TEntry),
      seqOccAux s0 srest (e :: rest) =
        (if e.entity_id = s0.1 ∧ e.state = s0.2 ∧
            (∀ sj ∈ srest, findInWindow e.ts sj.1 sj.2 rest = true) then 1 else 0) +
        seqOccAux s0 srest rest) := by
  refine ⟨?_, findInWindow_iff, ?_⟩
  · intro cfg ehist p hp
    rcases mem_seqScanAux cfg (timeline ehist) (timeline ehist) [] p hp with h | h
    · cases h
    · rcases h with ⟨start, rest, _, hocc, heq⟩
      subst heq
      refine ⟨?_, rfl, rfl, hocc⟩
      rw [shapeOf, List.map_map]
      rfl
  · intro s0 srest e rest
    simp only [seqOccAux, List.all_eq_true]

def seqPatSwap : SeqPattern :=
  (discover_sequence_patterns cfgSeq2 ehistSwap).headD ⟨[], [], 0, 0⟩

unseal Rat.add Rat.mul Rat.inv Rat.sub in
theorem sequence_occurrence_semantics_witness :
    (seqPatSwap ∈ discover_sequence_patterns cfgSeq2 ehistSwap) ∧
    (seqPatSwap.sequence_key = seqPatSwap.steps.map (fun st => (st.entity_id, st.state)) ∧
     seqPatSwap.occurrences =
       count_sequence_occurrences (timeline ehistSwap) seqPatSwap.sequence_key ∧
     seqPatSwap.confidence = min 1 ((seqPatSwap.occurrences : ℚ) / 10) ∧
     cfgSeq2.min_occurrences ≤ seqPatSwap.occurrences) :=
  ⟨by decide, (sequence_occurrence_semantics.1 cfgSeq2 ehistSwap seqPatSwap (by decide))⟩

/-! ## ConditionalPatternMiner
(`PatternDiscovery.discover_conditional_patterns`).  Python iterates the
condition entities as a `set`; the model iterates them in key order (the
emitted set of patterns is the same, only the output order is fixed). -/

structure CondPattern where
  entity_id : String
  domain : String
  condition_entity : String
  condition_state : String
  target_state : String
  confidence : ℚ
  occurrences : Nat
deriving DecidableEq

def condDomains : List String :=
  ["binary_sensor", "sensor", "sun", "weather", "person", "device_tracker"]

def skipDomains : List String := ["binary_sensor", "sensor", "sun", "weather"]

/-- Line 215: `0 <= (entry_time - condition_time).total_seconds() <= 600`. -/
def inCondWindow (tc te : ℚ) : Bool := decide (0 ≤ te - tc) && decide (te - tc ≤ 600)

/-- One step of the inner target scan: a well-formed target event inside the
10-minute window bumps `correlations[condition_state][entry_state]`. -/
def condInnerStep (cs : String) (tc : ℚ) (acc : List (String × List (String × Nat)))
    (e : Entry) : List (String × List (String × Nat)) :=
  match e.state, e.last_changed with
  | some s, some te => if inCondWindow tc te then bumpNested acc cs s else acc
  | _, _ => acc

/-- Lines 197-216: the nested correlation counters. -/
def buildCorrelations (chist target : List Entry) : List (String × List (String × Nat)) :=
  chist.foldl (fun acc ce =>
    match ce.state, ce.last_changed with
    | some cs, some tc => target.foldl (condInnerStep cs tc) acc
    | _, _ => acc) []

/-- Lines 219-243: per-condition-state analysis and emission. -/
def condFromState (cfg : Config) (eid cid : String) (b : String × List (String × Nat)) :
    List CondPattern :=
  if b.2 = [] then []
  else if sumCounts b.2 < cfg.min_occurrences then []
  else if cfg.confidence_threshold ≤ ((firstArgmax b.2).2 : ℚ) / (sumCounts b.2 : ℚ) then
    [⟨eid, domainOf eid, cid, b.1, (firstArgmax b.2).1,
      ((firstArgmax b.2).2 : ℚ) / (sumCounts b.2 : ℚ), (firstArgmax b.2).2⟩]
  else []

def discover_conditional_patterns (cfg : Config) (ehist : EntityHistory) : List CondPattern :=
  ehist.flatMap (fun q =>
    if domainOf q.1 ∈ skipDomains ∨ q.2.length < cfg.min_occurrences then []
    else ((ehist.map Prod.fst).filter
        (fun eid => decide (domainOf eid ∈ condDomains))).flatMap (fun cid =>
      if cid = q.1 then []
      else if (assocGet ehist cid).length < cfg.min_occurrences then []
      else (buildCorrelations (assocGet ehist cid) q.2).flatMap (condFromState cfg q.1 cid)))

/-! ## PeriodicPatternMiner
(`PatternDiscovery.discover_periodic_patterns`).  `np.std` computes the
population standard deviation; its square root is the abstract parameter
`sqrtQ` applied to the exactly-computed population variance. -/

structure PeriodicPattern where
  entity_id : String
  domain : String
  state : String
  interval_hours : ℚ
  confidence : ℚ
  occurrences : Nat
deriving DecidableEq

/-- Python's `round()`: nearest integer, ties to even. -/
def pyRound (x : ℚ) : ℤ :=
  if x - Int.floor x < 1/2 then Int.floor x
  else if 1/2 < x - Int.floor x then Int.floor x + 1
  else if Int.floor x % 2 = 0 then Int.floor x else Int.floor x + 1

def listMean (l : List ℚ) : ℚ := l.sum / l.length

/-- Mean of the squared deviations: `np.std(l) ** 2`, exactly. -/
def popVar (l : List ℚ) : ℚ := ((l.map (fun x => (x - listMean l) ^ 2)).sum) / l.length

/-- `state_timestamps[state].append(timestamp)` over the scan (lines 267-278). -/
def buildStateTimes (history : List Entry) : List (String × List ℚ) :=
  history.foldl (fun acc e =>
    match e.state, e.last_changed with
    | some s, some t => pushAssoc acc s t
    | _, _ => acc) []

def sortQ (l : List ℚ) : List ℚ := sSort (fun a b => decide (a ≤ b)) l

/-- Consecutive inter-arrival intervals, converted to hours (lines 289-292). -/
def intervalsHours (ts : List ℚ) : List ℚ :=
  (ts.zip ts.tail).map (fun q => (q.2 - q.1) / 3600)

/-- Lines 281-314: per-state periodicity test and emission. -/
def periodicFromState (sqrtQ : ℚ → ℚ) (cfg : Config) (eid : String) (b : String × List ℚ) :
    List PeriodicPattern :=
  if b.2.length < cfg.min_occurrences * 2 then []
  else if intervalsHours (sortQ b.2) = [] then []
  else if sqrtQ (popVar (intervalsHours (sortQ b.2))) <
      listMean (intervalsHours (sortQ b.2)) * (3/10) then
    if 1 ≤ (pyRound (listMean (intervalsHours (sortQ b.2)) * 2) : ℚ) / 2 ∧
        (pyRound (listMean (intervalsHours (sortQ b.2)) * 2) : ℚ) / 2 ≤ 24 then
      [⟨eid, domainOf eid, b.1,
        (pyRound (listMean (intervalsHours (sortQ b.2)) * 2) : ℚ) / 2,
        1 - sqrtQ (popVar (intervalsHours (sortQ b.2))) /
          listMean (intervalsHours (sortQ b.2)),
        b.2.length⟩]
    else []
  else []

def discover_periodic_patterns (sqrtQ : ℚ → ℚ) (cfg : Config) (ehist : EntityHistory) :
    List PeriodicPattern :=
  ehist.flatMap (fun q =>
    if domainOf q.1 ∈ skipDomains ∨ q.2.length < cfg.min_occurrences * 2 then []
    else (buildStateTimes q.2).flatMap (periodicFromState sqrtQ cfg q.1))

theorem totalFor_foldl_condInnerStep (cs : String) (tc : ℚ) :
    ∀ (target : List Entry) (acc : List (String × List (String × Nat))),
      totalFor (target.foldl (condInnerStep cs tc) acc) cs =
        totalFor acc cs + target.countP (fun e =>
          match e.state, e.last_changed with
          | some _, some te => inCondWindow tc te
          | _, _ => false) := by
  intro target
  induction target with
  | nil => intro acc; simp
  | cons e rest ih =>
    intro acc
    rw [List.foldl_cons, List.countP_cons, ih]
    cases hs : e.state with
    | none => simp [condInnerStep, hs]
    | some s =>
      cases ht : e.last_changed with
      | none => simp [condInnerStep, hs, ht]
      | some te =>
        by_cases hw : inCondWindow tc te = true
        · have h1 : condInnerStep cs tc acc e = bumpNested acc cs s := by
            simp [condInnerStep, hs, ht, hw]
          rw [h1, totalFor_bumpNested]
          simp [hs, ht, hw]
          omega
        · have h1 : condInnerStep cs tc acc e = acc := by
            simp [condInnerStep, hs, ht, hw]
          rw [h1]
          have hw' : inCondWindow tc te = false := Bool.eq_false_iff.mpr hw
          simp [hs, ht, hw']

def cfgCond : Config := { min_occurrences := 1 }

def ehistCondAt (d : ℚ) : EntityHistory :=
  [("binary_sensor.motion", [⟨none, some "on", some 0⟩]),
   ("light.lamp", [⟨none, some "on", some d⟩])]

unseal Rat.add Rat.mul Rat.inv Rat.sub in
/-- **C6.**  A target event is counted toward a condition event exactly when
its timestamp minus the condition timestamp lies in the closed interval
`[0, 600]` seconds: the window test is equivalent to membership in
`Set.Icc 0 600`, the per-condition-event tally counts exactly the well-formed
target events inside the window, and on a concrete one-condition/one-target
input the full miner emits a pattern for an offset of exactly `600` seconds
but not for `600.01` seconds nor for a target change before the condition. -/
theorem conditional_window_boundary :
    (∀ tc te : ℚ, inCondWindow tc te = true ↔ (te - tc) ∈ Set.Icc (0 : ℚ) 600) ∧
    (∀ (cs : String) (tc : ℚ) (target : List Entry),
      totalFor (buildCorrelations [⟨none, some cs, some tc⟩] target) cs =
        target.countP (fun e =>
          match e.state, e.last_changed with
          | some _, some te => inCondWindow tc te
          | _, _ => false)) ∧
    (discover_conditional_patterns cfgCond (ehistCondAt 600)).length = 1 ∧
    discover_conditional_patterns cfgCond (ehistCondAt (60001/100)) = [] ∧
    discover_conditional_patterns cfgCond (ehistCondAt (-1)) = [] := by
  refine ⟨?_, ?_, by decide, by decide, by decide⟩
  · intro tc te
    simp [inCondWindow, Set.mem_Icc]
  · intro cs tc target
    have h1 : buildCorrelations [⟨none, some cs, some tc⟩] target =
        target.foldl (condInnerStep cs tc) [] := by
      simp [buildCorrelations]
    rw [h1, totalFor_foldl_condInnerStep]
    simp [totalFor, assocGet_nil, sumCounts]

theorem mem_periodicFromState (sqrtQ : ℚ → ℚ) (cfg : Config) (eid : String)
    (b : String × List ℚ) (p : PeriodicPattern) (hp : p ∈ periodicFromState sqrtQ cfg eid b) :
    ¬ b.2.length < cfg.min_occurrences * 2 ∧
    intervalsHours (sortQ b.2) ≠ [] ∧
    sqrtQ (popVar (intervalsHours (sortQ b.2))) <
      listMean (intervalsHours (sortQ b.2)) * (3/10) ∧
    (1 ≤ (pyRound (listMean (intervalsHours (sortQ b.2)) * 2) : ℚ) / 2 ∧
      (pyRound (listMean (intervalsHours (sortQ b.2)) * 2) : ℚ) / 2 ≤ 24) ∧
    p = ⟨eid, domainOf eid, b.1,
      (pyRound (listMean (intervalsHours (sortQ b.2)) * 2) : ℚ) / 2,
      1 - sqrtQ (popVar (intervalsHours (sortQ b.2))) / listMean (intervalsHours (sortQ b.2)),
      b.2.length⟩ := by
  unfold periodicFromState at hp
  by_cases h1 : b.2.length < cfg.min_occurrences * 2
  · rw [if_pos h1] at hp
    cases hp
  · rw [if_neg h1] at hp
    by_cases h2 : intervalsHours (sortQ b.2) = []
    · rw [if_pos h2] at hp
      cases hp
    · rw [if_neg h2] at hp
      by_cases h3 : sqrtQ (popVar (intervalsHours (sortQ b.2))) <
          listMean (intervalsHours (sortQ b.2)) * (3/10)
      · rw [if_pos h3] at hp
        by_cases h4 : 1 ≤ (pyRound (listMean (intervalsHours (sortQ b.2)) * 2) : ℚ) / 2 ∧
            (pyRound (listMean (intervalsHours (sortQ b.2)) * 2) : ℚ) / 2 ≤ 24
        · rw [if_pos h4] at hp
          exact ⟨h1, h2, h3, h4, List.mem_singleton.mp hp⟩
        · rw [if_neg h4] at hp
          cases hp
      · rw [if_neg h3] at hp
        cases hp

theorem mem_discover_periodic (sqrtQ : ℚ → ℚ) (cfg : Config) (ehist : EntityHistory)
    (p : PeriodicPattern) (hp : p ∈ discover_periodic_patterns sqrtQ cfg ehist) :
    ∃ q ∈ ehist, ∃ b ∈ buildStateTimes q.2, p ∈ periodicFromState sqrtQ cfg q.1 b := by
  unfold discover_periodic_patterns at hp
  rcases List.mem_flatMap.mp hp with ⟨q, hq, hpq⟩
  by_cases hg : domainOf q.1 ∈ skipDomains ∨ q.2.length < cfg.min_occurrences * 2
  · rw [if_pos hg] at hpq
    cases hpq
  · rw [if_neg hg] at hpq
    rcases List.mem_flatMap.mp hpq with ⟨b, hb, hpb⟩
    exact ⟨q, hq, b, hb, hpb⟩

/-- **C7.**  Every emitted periodic pattern's `interval_hours` lies in
`[1, 24]` and is an integer multiple of `0.5`, namely the mean inter-arrival
interval of the state's sorted timestamps rounded to the nearest half hour;
emission requires the standard deviation computed by the square-root routine
`sqrtQ` on the population variance to be strictly below `0.3 ×` the mean, and
the pattern carries `confidence = 1 - stddev / mean`. -/
theorem periodic_interval_bounds (sqrtQ : ℚ → ℚ) (cfg : Config) (ehist : EntityHistory)
    (p : PeriodicPattern) (hp : p ∈ discover_periodic_patterns sqrtQ cfg ehist) :
    1 ≤ p.interval_hours ∧ p.interval_hours ≤ 24 ∧
    (∃ k : ℤ, p.interval_hours = (k : ℚ) / 2) ∧
    ∃ q ∈ ehist, ∃ b ∈ buildStateTimes q.2,
      p.entity_id = q.1 ∧ p.state = b.1 ∧ p.occurrences = b.2.length ∧
      intervalsHours (sortQ b.2) ≠ [] ∧
      sqrtQ (popVar (intervalsHours (sortQ b.2))) <
        listMean (intervalsHours (sortQ b.2)) * (3/10) ∧
      p.interval_hours = (pyRound (listMean (intervalsHours (sortQ b.2)) * 2) : ℚ) / 2 ∧
      p.confidence = 1 - sqrtQ (popVar (intervalsHours (sortQ b.2))) /
        listMean (intervalsHours (sortQ b.2)) := by
  rcases mem_discover_periodic sqrtQ cfg ehist p hp with ⟨q, hq, b, hb, hpb⟩
  rcases mem_periodicFromState sqrtQ cfg q.1 b p hpb with ⟨_, hne, hsd, ⟨hlo, hhi⟩, heq⟩
  subst heq
  refine ⟨hlo, hhi, ⟨pyRound (listMean (intervalsHours (sortQ b.2)) * 2), rfl⟩,
    q, hq, b, hb, rfl, rfl, rfl, hne, hsd, rfl, rfl⟩

/-- **C10.**  For any nonnegative square-root routine, every emitted periodic
pattern has confidence strictly greater than `0.7` and at most `1`; the mean
dividing the standard deviation is strictly positive (forced by the strict
emission guard together with `stddev ≥ 0`), and with the default
`min_confidence` of `0.7` the confidence filter removes no periodic pattern. -/
theorem periodic_confidence_bounds (sqrtQ : ℚ → ℚ) (hpos : ∀ x, 0 ≤ sqrtQ x)
    (cfg : Config) (ehist : EntityHistory) :
    (∀ p ∈ discover_periodic_patterns sqrtQ cfg ehist,
      7/10 < p.confidence ∧ p.confidence ≤ 1 ∧
      ∃ ivs : List ℚ, ivs ≠ [] ∧ 0 < listMean ivs ∧
        sqrtQ (popVar ivs) < listMean ivs * (3/10) ∧
        p.confidence = 1 - sqrtQ (popVar ivs) / listMean ivs) ∧
    (discover_periodic_patterns sqrtQ cfg ehist).filter
        (fun p => decide ((7/10 : ℚ) ≤ p.confidence)) =
      discover_periodic_patterns sqrtQ cfg ehist := by
  have main : ∀ p ∈ discover_periodic_patterns sqrtQ cfg ehist,
      7/10 < p.confidence ∧ p.confidence ≤ 1 ∧
      ∃ ivs : List ℚ, ivs ≠ [] ∧ 0 < listMean ivs ∧
        sqrtQ (popVar ivs) < listMean ivs * (3/10) ∧
        p.confidence = 1 - sqrtQ (popVar ivs) / listMean ivs := by
    intro p hp
    rcases mem_discover_periodic sqrtQ cfg ehist p hp with ⟨q, _, b, _, hpb⟩
    rcases mem_periodicFromState sqrtQ cfg q.1 b p hpb with ⟨_, hne, hsd, _, heq⟩
    have h0 : 0 ≤ sqrtQ (popVar (intervalsHours (sortQ b.2))) := hpos _
    have hmean : 0 < listMean (intervalsHours (sortQ b.2)) := by nlinarith
    have hfrac1 : sqrtQ (popVar (intervalsHours (sortQ b.2))) /
        listMean (intervalsHours (sortQ b.2)) < 3/10 := by
      rw [div_lt_iff₀ hmean]
      nlinarith
    have hfrac0 : 0 ≤ sqrtQ (popVar (intervalsHours (sortQ b.2))) /
        listMean (intervalsHours (sortQ b.2)) := div_nonneg h0 (le_of_lt hmean)
    have hconf : p.confidence = 1 - sqrtQ (popVar (intervalsHours (sortQ b.2))) /
        listMean (intervalsHours (sortQ b.2)) := by
      rw [heq]
    refine ⟨by rw [hconf]; linarith, by rw [hconf]; linarith,
      intervalsHours (sortQ b.2), hne, hmean, hsd, hconf⟩
  refine ⟨main, List.filter_eq_self.mpr ?_⟩
  intro p hp
  exact decide_eq_true (le_of_lt (main p hp).1)

def ehistPeriodic : EntityHistory :=
  [("switch.pump", [⟨none, some "on", some 0⟩, ⟨none, some "on", some 7200⟩,
    ⟨none, some "on", some 14400⟩, ⟨none, some "on", some 21600⟩,
    ⟨none, some "on", some 28800⟩, ⟨none, some "on", some 36000⟩])]

def sqrtZero : ℚ → ℚ := fun _ => 0

def perPat : PeriodicPattern :=
  (discover_periodic_patterns sqrtZero cfgW ehistPeriodic).headD ⟨"", "", "", 0, 0, 0⟩

unseal Rat.add Rat.mul Rat.inv Rat.sub in
theorem periodic_interval_bounds_witness :
    (perPat ∈ discover_periodic_patterns sqrtZero cfgW ehistPeriodic) ∧
    (1 ≤ perPat.interval_hours ∧ perPat.interval_hours ≤ 24 ∧
     (∃ k : ℤ, perPat.interval_hours = (k : ℚ) / 2) ∧
     ∃ q ∈ ehistPeriodic, ∃ b ∈ buildStateTimes q.2,
       perPat.entity_id = q.1 ∧ perPat.state = b.1 ∧ perPat.occurrences = b.2.length ∧
       intervalsHours (sortQ b.2) ≠ [] ∧
       sqrtZero (popVar (intervalsHours (sortQ b.2))) <
         listMean (intervalsHours (sortQ b.2)) * (3/10) ∧
       perPat.interval_hours = (pyRound (listMean (intervalsHours (sortQ b.2)) * 2) : ℚ) / 2 ∧
       perPat.confidence = 1 - sqrtZero (popVar (intervalsHours (sortQ b.2))) /
         listMean (intervalsHours (sortQ b.2))) :=
  ⟨by decide, periodic_interval_bounds sqrtZero cfgW ehistPeriodic perPat (by decide)⟩

theorem periodic_confidence_bounds_witness :
    (∀ x : ℚ, 0 ≤ sqrtZero x) ∧
    ((∀ p ∈ discover_periodic_patterns sqrtZero cfgW ehistPeriodic,
      7/10 < p.confidence ∧ p.confidence ≤ 1 ∧
      ∃ ivs : List ℚ, ivs ≠ [] ∧ 0 < listMean ivs ∧
        sqrtZero (popVar ivs) < listMean ivs * (3/10) ∧
        p.confidence = 1 - sqrtZero (popVar ivs) / listMean ivs) ∧
    (discover_periodic_patterns sqrtZero cfgW ehistPeriodic).filter
        (fun p => decide ((7/10 : ℚ) ≤ p.confidence)) =
      discover_periodic_patterns sqrtZero cfgW ehistPeriodic) :=
  ⟨fun _ => le_refl 0,
   periodic_confidence_bounds sqrtZero (fun _ => le_refl 0) cfgW ehistPeriodic⟩

/-! ## SuggestionEngine
(`SuggestionEngine.generate_suggestions` and the `_convert_*_patterns`
helpers).  A suggestion is modelled by the fields the ranking pipeline reads:
its type tag, its confidence, and its entity list; the human-readable
title/description/id strings and the YAML text are not modelled (no claim
concerns them). -/

structure Suggestion where
  stype : String
  confidence : ℚ
  entities : List String
deriving DecidableEq

def convert_daily_patterns (cfg : Config) (pats : List DailyPattern) : List Suggestion :=
  pats.flatMap (fun p =>
    if p.confidence < cfg.min_confidence then []
    else [⟨"daily", p.confidence, [p.entity_id]⟩])

def convert_sequence_patterns (cfg : Config) (pats : List SeqPattern) : List Suggestion :=
  pats.flatMap (fun p =>
    if p.confidence < cfg.min_confidence ∨ p.steps.length < 2 then []
    else [⟨"sequence", p.confidence, p.steps.map (fun s => s.entity_id)⟩])

def convert_conditional_patterns (cfg : Config) (pats : List CondPattern) : List Suggestion :=
  pats.flatMap (fun p =>
    if p.confidence < cfg.min_confidence then []
    else [⟨"conditional", p.confidence, [p.entity_id, p.condition_entity]⟩])

def convert_periodic_patterns (cfg : Config) (pats : List PeriodicPattern) : List Suggestion :=
  pats.flatMap (fun p =>
    if p.confidence < cfg.min_confidence then []
    else [⟨"periodic", p.confidence, [p.entity_id]⟩])

/-- Lines 47-59: run the four miners and concatenate the converted
suggestions in the source's order. -/
def merged_suggestions (sqrtQ : ℚ → ℚ) (cfg : Config) (ehist : EntityHistory) :
    List Suggestion :=
  convert_daily_patterns cfg (discover_daily_patterns cfg ehist) ++
  convert_sequence_patterns cfg (discover_sequence_patterns cfg ehist) ++
  convert_conditional_patterns cfg (discover_conditional_patterns cfg ehist) ++
  convert_periodic_patterns cfg (discover_periodic_patterns sqrtQ cfg ehist)

/-- `suggestions.sort(key=lambda x: x.get('confidence', 0), reverse=True)`:
stable descending order by confidence. -/
def confDesc (a b : Suggestion) : Bool := decide (b.confidence ≤ a.confidence)

/-- Lines 61-67: sort by confidence descending (stable), filter by
`min_confidence`, and truncate to `max_suggestions`. -/
def generate_suggestions (sqrtQ : ℚ → ℚ) (cfg : Config) (ehist : EntityHistory) :
    List Suggestion :=
  ((sSort confDesc (merged_suggestions sqrtQ cfg ehist)).filter
    (fun s => decide (cfg.min_confidence ≤ s.confidence))).take cfg.max_suggestions

/-- **C1.**  The returned suggestion list has length at most
`max_suggestions`, every returned suggestion has confidence at least
`min_confidence`, the list is ordered by confidence non-increasing, and for
every confidence value the returned suggestions of that confidence form a
sublist of the merged converter outputs in their original (stable) order. -/
theorem generate_suggestions_ranked (sqrtQ : ℚ → ℚ) (cfg : Config) (ehist : EntityHistory) :
    (generate_suggestions sqrtQ cfg ehist).length ≤ cfg.max_suggestions ∧
    (∀ s ∈ generate_suggestions sqrtQ cfg ehist, cfg.min_confidence ≤ s.confidence) ∧
    (generate_suggestions sqrtQ cfg ehist).Pairwise
      (fun a b => b.confidence ≤ a.confidence) ∧
    ∀ c : ℚ, List.Sublist
      ((generate_suggestions sqrtQ cfg ehist).filter (fun s => decide (s.confidence = c)))
      ((merged_suggestions sqrtQ cfg ehist).filter (fun s => decide (s.confidence = c))) := by
  refine ⟨?_, ?_, ?_, ?_⟩
  · exact List.length_take_le _ _
  · intro s hs
    have hs' := List.mem_of_mem_take hs
    have := (List.mem_filter.mp hs').2
    exact of_decide_eq_true this
  · have hsorted : (sSort confDesc (merged_suggestions sqrtQ cfg ehist)).Pairwise
        (fun a b : Suggestion => b.confidence ≤ a.confidence) := by
      refine pairwise_sSort confDesc ?_ ?_ ?_ _
      · intro a b h
        exact of_decide_eq_true h
      · intro a b h
        exact le_of_not_le (of_decide_eq_false h)
      · intro a b c hab hbc
        exact le_trans hbc hab
    exact ((hsorted.filter _).sublist (List.take_sublist _ _))
  · intro c
    have hstable : (sSort confDesc (merged_suggestions sqrtQ cfg ehist)).filter
        (fun s => decide (s.confidence = c)) =
        (merged_suggestions sqrtQ cfg ehist).filter (fun s => decide (s.confidence = c)) := by
      refine filter_sSort confDesc _ ?_ _
      intro a b ha hb
      have ha' : a.confidence = c := of_decide_eq_true ha
      have hb' : b.confidence = c := of_decide_eq_true hb
      exact decide_eq_true (by rw [ha', hb'])
    have s1 : List.Sublist
        ((((sSort confDesc (merged_suggestions sqrtQ cfg ehist)).filter
          (fun s => decide (cfg.min_confidence ≤ s.confidence))).take
          cfg.max_suggestions).filter (fun s => decide (s.confidence = c)))
        (((sSort confDesc (merged_suggestions sqrtQ cfg ehist)).filter
          (fun s => decide (cfg.min_confidence ≤ s.confidence))).filter
          (fun s => decide (s.confidence = c))) :=
      List.Sublist.filter _ (List.take_sublist _ _)
    have s2 : List.Sublist
        (((sSort confDesc (merged_suggestions sqrtQ cfg ehist)).filter
          (fun s => decide (cfg.min_confidence ≤ s.confidence))).filter
          (fun s => decide (s.confidence = c)))
        ((sSort confDesc (merged_suggestions sqrtQ cfg ehist)).filter
          (fun s => decide (s.confidence = c))) :=
      List.Sublist.filter _ (List.filter_sublist _)
    exact hstable ▸ (s1.trans s2)

/-! ## Daily automation synthesis
(`SuggestionEngine._generate_daily_automation_yaml`).  The automation dict is
modelled structurally; `yaml.dump` serialisation is not modelled. -/

def dayNames : List String :=
  ["Monday", "Tuesday", "Wednesday", "Thursday", "Friday", "Saturday", "Sunday"]

def toggleDomains : List String := ["light", "switch", "fan", "cover"]

structure TimeTrigger where
  platform : String
  tat : String
  weekday : List Nat
deriving DecidableEq

structure AutoAction where
  service : String
  target_entity : String
  data : List (String × String)
deriving DecidableEq

structure DailyAutomation where
  auto_id : String
  auto_alias : String
  description : String
  trigger : TimeTrigger
  action : AutoAction
deriving DecidableEq

/-- Lines 243-315 of `suggestion_engine.py`; the `tat` field is the `'at'`
key of the trigger dict. -/
def generate_daily_automation_yaml (p : DailyPattern) : DailyAutomation :=
  { auto_id := "daily_" ++ p.entity_id.replace "." "_" ++ "_" ++ Nat.repr p.day_of_week ++
      "_" ++ Nat.repr p.hour
    auto_alias := "Turn " ++ p.state ++ " " ++ p.entity_id ++ " on " ++
      (if p.day_of_week ≤ 6 then dayNames.getD p.day_of_week "day" else "day") ++
      " at " ++ Nat.repr p.hour ++ ":00"
    description := "Automatically turn " ++ p.state ++ " the " ++ p.entity_id ++
      " every " ++
      (if p.day_of_week ≤ 6 then dayNames.getD p.day_of_week "day" else "day") ++
      " at " ++ Nat.repr p.hour ++ ":00"
    trigger := ⟨"time", twoDigit p.hour ++ ":00:00", [p.day_of_week + 1]⟩
    action :=
      if p.domain ∈ toggleDomains then
        ⟨p.domain ++ (if p.state = "on" then ".turn_on" else ".turn_off"), p.entity_id, []⟩
      else if p.domain = "climate" then
        ⟨"climate.set_hvac_mode", p.entity_id, [("hvac_mode", p.state)]⟩
      else
        ⟨p.domain ++ ".set_state", p.entity_id, [("state", p.state)]⟩ }

theorem twoDigit_length_lt : ∀ n < 24, (twoDigit n).length = 2 := by decide

/-- **C8.**  For a daily pattern with hour in `[0, 23]` and weekday in
`[0, 6]`, the synthesised automation's trigger is a time trigger whose `'at'`
value is the hour formatted as exactly two digits followed by `":00:00"`, and
whose weekday value is the zero-based day index shifted by `+1`. -/
theorem daily_automation_trigger (p : DailyPattern) (hh : p.hour ≤ 23)
    (_hd : p.day_of_week ≤ 6) :
    (generate_daily_automation_yaml p).trigger.platform = "time" ∧
    (generate_daily_automation_yaml p).trigger.tat = twoDigit p.hour ++ ":00:00" ∧
    (twoDigit p.hour).length = 2 ∧
    (generate_daily_automation_yaml p).trigger.weekday = [p.day_of_week + 1] :=
  ⟨rfl, rfl, twoDigit_length_lt p.hour (Nat.lt_succ_of_le hh), rfl⟩

def dailyPatW : DailyPattern := ⟨"light.living_room", "light", 2, 7, "on", 1, 3⟩

theorem daily_automation_trigger_witness :
    dailyPatW.hour ≤ 23 ∧ dailyPatW.day_of_week ≤ 6 ∧
    ((generate_daily_automation_yaml dailyPatW).trigger.platform = "time" ∧
     (generate_daily_automation_yaml dailyPatW).trigger.tat =
       twoDigit dailyPatW.hour ++ ":00:00" ∧
     (twoDigit dailyPatW.hour).length = 2 ∧
     (generate_daily_automation_yaml dailyPatW).trigger.weekday =
       [dailyPatW.day_of_week + 1]) :=
  ⟨by decide, by decide, daily_automation_trigger dailyPatW (by decide) (by decide)⟩

/-! ## AutomationGenerator
(`AutomationGenerator.analyze_entity_usage`, `_find_time_patterns`,
`_find_state_patterns` from `generator.py`).  `HistoryData.other` stands for
any Python value that is neither a `list` nor a `dict`; Python's
`max(set(states), ...)` tie-break over an unordered set is modelled by the
first-encountered maximum. -/

structure GPattern where
  entity_id : String
  ptype : String
  trigger_time : Option String := none
  trigger_entity : Option String := none
  trigger_state : Option String := none
  action_state : String
  confidence : ℚ
  occurrences : Nat
deriving DecidableEq

inductive HistoryData where
  | flat (l : List Entry)
  | grouped (m : EntityHistory)
  | other
deriving DecidableEq

/-- Python truthiness of `item.get('entity_id')`: present and non-empty. -/
def entityOk (e : Entry) : Bool :=
  match e.entity_id with
  | some eid => decide (eid ≠ "")
  | none => false

/-- Lines 42-48: group the flat legacy format by entity id, skipping items
with a falsy `entity_id`. -/
def groupByEntity (l : List Entry) : EntityHistory :=
  l.foldl (fun acc e =>
    match e.entity_id with
    | some eid => if eid = "" then acc else pushAssoc acc eid e
    | none => acc) []

/-- Lines 90-99: bucket well-formed events by the `f"{hour:02d}:00"` label;
malformed events are skipped by the key test and the `try/except`. -/
def gTimeBuckets (h : List Entry) : List (String × List String) :=
  h.foldl (fun acc e =>
    match e.state, e.last_changed with
    | some s, some t => pushAssoc acc (twoDigit (hourOf t) ++ ":00") s
    | _, _ => acc) []

/-- Lines 101-119: emit a time pattern per bucket reaching the threshold with
a ≥ 0.7 majority. -/
def find_time_patterns (cfg : Config) (eid : String) (h : List Entry) : List GPattern :=
  (gTimeBuckets h).flatMap (fun b =>
    if b.2.length < cfg.suggestion_threshold then []
    else if countsOf b.2 = [] then []
    else if (7/10 : ℚ) ≤ ((firstArgmax (countsOf b.2)).2 : ℚ) / (b.2.length : ℚ) then
      [⟨eid, "time", some b.1, none, none, (firstArgmax (countsOf b.2)).1,
        ((firstArgmax (countsOf b.2)).2 : ℚ) / (b.2.length : ℚ), b.2.length⟩]
    else [])

/-- Lines 154-180: `(trigger_state, action_state)` correlation pairs for
entity changes 0-60 seconds (inclusive) after a trigger change; malformed
events on either side are skipped. -/
def corrPairs (trigHist target : List Entry) : List (String × String) :=
  trigHist.flatMap (fun te =>
    match te.state, te.last_changed with
    | some ts, some tt => target.filterMap (fun e =>
        match e.state, e.last_changed with
        | some s, some t0 => if 0 ≤ t0 - tt ∧ t0 - tt ≤ 60 then some (ts, s) else none
        | _, _ => none)
    | _, _ => [])

def triggerDomains : List String := ["binary_sensor", "sensor", "device_tracker", "person"]

/-- Lines 122-208: state-correlation patterns.  The Python grouping key is
`(trigger_entity, trigger_state)`; within one trigger entity's loop the first
component is constant, so grouping by `trigger_state` is the same map. -/
def find_state_patterns (cfg : Config) (eid : String) (h : List Entry)
    (m : EntityHistory) : List GPattern :=
  if domainOf eid ∈ skipDomains then []
  else m.flatMap (fun q =>
    if q.1 = eid ∨ q.2.length < cfg.suggestion_threshold then []
    else if domainOf q.1 ∉ triggerDomains then []
    else if (corrPairs q.2 h).length < cfg.suggestion_threshold then []
    else ((corrPairs q.2 h).foldl (fun acc pr => pushAssoc acc pr.1 pr.2) []).flatMap
      (fun b =>
        if b.2.length < cfg.suggestion_threshold then []
        else if countsOf b.2 = [] then []
        else if (7/10 : ℚ) ≤ ((firstArgmax (countsOf b.2)).2 : ℚ) / (b.2.length : ℚ) then
          [⟨eid, "state", none, some q.1, some b.1, (firstArgmax (countsOf b.2)).1,
            ((firstArgmax (countsOf b.2)).2 : ℚ) / (b.2.length : ℚ), b.2.length⟩]
        else []))

/-- Lines 56-74: per-entity analysis, then sort by confidence descending and
truncate. -/
def analyzeMap (cfg : Config) (m : EntityHistory) : List GPattern :=
  (sSort (fun a b => decide (b.confidence ≤ a.confidence))
    (m.flatMap (fun q =>
      if q.2.length < cfg.suggestion_threshold then []
      else find_time_patterns cfg q.1 q.2 ++ find_state_patterns cfg q.1 q.2 m))).take
    cfg.max_suggestions

def analyze_entity_usage (cfg : Config) : HistoryData → List GPattern
  | .flat l => analyzeMap cfg (groupByEntity l)
  | .grouped m => analyzeMap cfg m
  | .other => []

theorem groupByEntity_filter (l : List Entry) :
    groupByEntity l = groupByEntity (l.filter entityOk) := by
  have main : ∀ (ls : List Entry) (acc : EntityHistory),
      ls.foldl (fun acc e =>
        match e.entity_id with
        | some eid => if eid = "" then acc else pushAssoc acc eid e
        | none => acc) acc =
      (ls.filter entityOk).foldl (fun acc e =>
        match e.entity_id with
        | some eid => if eid = "" then acc else pushAssoc acc eid e
        | none => acc) acc := by
    intro ls
    induction ls with
    | nil => intro acc; rfl
    | cons e rest ih =>
      intro acc
      cases he : e.entity_id with
      | none =>
        have hok : entityOk e = false := by simp [entityOk, he]
        simp [List.filter_cons, hok, List.foldl_cons, he, ih]
      | some eid =>
        by_cases hemp : eid = ""
        · have hok : entityOk e = false := by simp [entityOk, he, hemp]
          simp [List.filter_cons, hok, List.foldl_cons, he, hemp, ih]
        · have hok : entityOk e = true := by simp [entityOk, he, hemp]
          simp [List.filter_cons, hok, List.foldl_cons, he, hemp, ih]
  exact main l []

theorem gTimeBuckets_filter (h : List Entry) :
    gTimeBuckets h = gTimeBuckets (h.filter wfEntry) := by
  have main : ∀ (ls : List Entry) (acc : List (String × List String)),
      ls.foldl (fun acc e =>
        match e.state, e.last_changed with
        | some s, some t => pushAssoc acc (twoDigit (hourOf t) ++ ":00") s
        | _, _ => acc) acc =
      (ls.filter wfEntry).foldl (fun acc e =>
        match e.state, e.last_changed with
        | some s, some t => pushAssoc acc (twoDigit (hourOf t) ++ ":00") s
        | _, _ => acc) acc := by
    intro ls
    induction ls with
    | nil => intro acc; rfl
    | cons e rest ih =>
      intro acc
      cases hs : e.state with
      | none =>
        have hok : wfEntry e = false := by simp [wfEntry, hs]
        simp [List.filter_cons, hok, List.foldl_cons, hs, ih]
      | some s =>
        cases ht : e.last_changed with
        | none =>
          have hok : wfEntry e = false := by simp [wfEntry, hs, ht]
          simp [List.filter_cons, hok, List.foldl_cons, hs, ht, ih]
        | some t =>
          have hok : wfEntry e = true := by simp [wfEntry, hs, ht]
          simp [List.filter_cons, hok, List.foldl_cons, hs, ht, ih]
  exact main h []

theorem corrPairs_filter (trigHist target : List Entry) :
    corrPairs trigHist target = corrPairs (trigHist.filter wfEntry) (target.filter wfEntry) := by
  have inner : ∀ (ts : String) (tt : ℚ) (tg : List Entry),
      tg.filterMap (fun e =>
        match e.state, e.last_changed with
        | some s, some t0 => if 0 ≤ t0 - tt ∧ t0 - tt ≤ 60 then some (ts, s) else none
        | _, _ => none) =
      (tg.filter wfEntry).filterMap (fun e =>
        match e.state, e.last_changed with
        | some s, some t0 => if 0 ≤ t0 - tt ∧ t0 - tt ≤ 60 then some (ts, s) else none
        | _, _ => none) := by
    intro ts tt tg
    induction tg with
    | nil => rfl
    | cons e rest ih =>
      cases hs : e.state with
      | none =>
        have hok : wfEntry e = false := by simp [wfEntry, hs]
        simp only [List.filter_cons, hok, Bool.false_eq_true, if_false,
          List.filterMap_cons, hs]
        exact ih
      | some s =>
        cases ht : e.last_changed with
        | none =>
          have hok : wfEntry e = false := by simp [wfEntry, hs, ht]
          simp only [List.filter_cons, hok, Bool.false_eq_true, if_false,
            List.filterMap_cons, hs, ht]
          exact ih
        | some t =>
          have hok : wfEntry e = true := by simp [wfEntry, hs, ht]
          simp only [List.filter_cons, hok, if_true, List.filterMap_cons, hs, ht]
          by_cases hw : 0 ≤ t - tt ∧ t - tt ≤ 60
          · rw [if_pos hw, ih]
          · rw [if_neg hw, ih]
  unfold corrPairs
  induction trigHist with
  | nil => rfl
  | cons te rest ih =>
    cases hs : te.state with
    | none =>
      have hok : wfEntry te = false := by simp [wfEntry, hs]
      simp only [List.filter_cons, hok, List.flatMap_cons, hs, ih]
      simp
    | some ts =>
      cases ht : te.last_changed with
      | none =>
        have hok : wfEntry te = false := by simp [wfEntry, hs, ht]
        simp only [List.filter_cons, hok, List.flatMap_cons, hs, ht, ih]
        simp
      | some tt =>
        have hok : wfEntry te = true := by simp [wfEntry, hs, ht]
        simp only [List.filter_cons, hok, List.flatMap_cons, hs, ht, ih,
          if_true, inner ts tt target]

/-- **C9.**  `analyze_entity_usage` returns the empty list on any input that
is neither a list nor a dict (the embedding is total, so no exception can
escape), and malformed events are skipped without aborting the analysis of
the rest: items with a falsy `entity_id` never affect the grouping, and
events missing `state` or `last_changed` never affect the time buckets or the
correlation pairs computed from the remaining events. -/
theorem analyze_usage_robust :
    (∀ cfg : Config, analyze_entity_usage cfg .other = []) ∧
    (∀ l : List Entry, groupByEntity l = groupByEntity (l.filter entityOk)) ∧
    (∀ h : List Entry, gTimeBuckets h = gTimeBuckets (h.filter wfEntry)) ∧
    (∀ th tg : List Entry,
      corrPairs th tg = corrPairs (th.filter wfEntry) (tg.filter wfEntry)) :=
  ⟨fun _ => rfl, groupByEntity_filter, gTimeBuckets_filter, corrPairs_filter⟩

end HAuto
